import Mathlib

/-!
Verification of the OS-services layer in `src/kklib/src/os.c` (koka runtime).

The development shallowly embeds the C functions named by the claims:

* `kk_posix_read_retry` / `kk_posix_write_retry` (os.c lines 92-157) are
  modelled against an explicit oracle: a list of the results the underlying
  `read`/`write` system calls return, consumed one entry per loop iteration.
* `kk_posix_copy_file`'s `copy_file_range` block (os.c lines 305-331) is
  modelled with the same oracle style.
* The whole-file read/write, copy, list-directory, ensure-dir, search-path
  and stat-query functions are modelled over small explicit operating-system
  states further below.

Machine integers: the C code uses `size_t`/`ssize_t` values that stay far
below overflow in every claim considered, so they are embedded as `Nat`
(with `Int` where the C type is signed and sign tests matter).
-/

/-- Errno values used by os.c (standard Linux numbering). -/
def ENOENT : Nat := 2
def EINTR  : Nat := 4
def EIOcode    : Nat := 5
def EBADF  : Nat := 9
def EAGAIN : Nat := 11
def ENOMEM : Nat := 12
def EEXIST : Nat := 17
def EINVAL : Nat := 22

/-- Stat mode bits (POSIX). -/
def S_IFCHR : Nat := 0x2000
def S_IFDIR : Nat := 0x4000
def S_IFREG : Nat := 0x8000

/-- Result of one raw `read`/`write`/`copy_file_range` system call:
`ok n` is a nonnegative return value (bytes transferred), `fail e` is a
negative return with `errno = e`. -/
inductive SysRes where
  | ok (n : Nat)
  | fail (e : Nat)
deriving DecidableEq, Repr

/-- The transient-failure test in os.c: `errno == EAGAIN || errno == EINTR`. -/
def retryable (e : Nat) : Bool := e = EAGAIN || e = EINTR

/-- A syscall-result trace is valid for a transfer of `len` bytes started at
offset `ofs` when every successful call returns at most the number of bytes
requested at that point (`todo = len - ofs`), and every failing call carries a
nonzero errno (POSIX guarantees both). -/
def ValidTrace (len : Nat) : List SysRes → Nat → Bool
  | [], _ => true
  | SysRes.fail e :: rest, ofs => decide (e ≠ 0) && ValidTrace len rest ofs
  | SysRes.ok n :: rest, ofs => decide (n ≤ len - ofs) && ValidTrace len rest (ofs + n)

/-- Embedding of `kk_posix_read_retry` (os.c lines 92-122).  The do-while
loop issues one `read` of `todo = buflen - ofs` bytes per iteration, consuming
one oracle entry; transient failures are retried, a non-retryable failure
stops with that errno, a zero return (end of file) stops with success, and
progress advances `ofs`; the loop re-enters only while `ofs < buflen`.
Returns `some (err, read_count, eof)` where `eof` records whether the loop
stopped at the zero-byte-read break; `none` means the oracle was exhausted
before the loop exited. -/
def kk_posix_read_retry (buflen : Nat) : List SysRes → Nat → Option (Nat × Nat × Bool)
  | [], _ => none
  | SysRes.fail e :: rest, ofs =>
    if retryable e then
      if ofs < buflen then kk_posix_read_retry buflen rest ofs else some (0, ofs, false)
    else some (e, ofs, false)
  | SysRes.ok 0 :: _, ofs => some (0, ofs, true)
  | SysRes.ok (n+1) :: rest, ofs =>
    if ofs + (n+1) < buflen then kk_posix_read_retry buflen rest (ofs + (n+1))
    else some (0, ofs + (n+1), false)

/-- Embedding of `kk_posix_write_retry` (os.c lines 125-157).  Identical loop
structure to the read side except that a zero-byte write is treated as a
non-retryable `EIOcode` ("treat as error to ensure progress").  Returns
`some (err, write_count)`; `none` means the oracle was exhausted. -/
def kk_posix_write_retry (len : Nat) : List SysRes → Nat → Option (Nat × Nat)
  | [], _ => none
  | SysRes.fail e :: rest, ofs =>
    if retryable e then
      if ofs < len then kk_posix_write_retry len rest ofs else some (0, ofs)
    else some (e, ofs)
  | SysRes.ok 0 :: _, ofs => some (EIOcode, ofs)
  | SysRes.ok (n+1) :: rest, ofs =>
    if ofs + (n+1) < len then kk_posix_write_retry len rest (ofs + (n+1))
    else some (0, ofs + (n+1))

/-- Number of progressing results (a strictly positive byte count) in a
syscall-result trace. -/
def posCount (l : List SysRes) : Nat :=
  l.countP (fun r => match r with | SysRes.ok (_+1) => true | _ => false)

/-- Embedding of the `copy_file_range` loop in `kk_posix_copy_file`
(os.c lines 308-327): `while (off_in < len)` issue one `copy_file_range`
call; transient failures retry, any other failure stops with that errno,
a zero return stops ("ensure progress"), and a positive return advances
`off_in` (the kernel advances the offset itself).  Returns
`some (err, off_in)`; `none` means the oracle was exhausted. -/
def copy_file_range_loop (len : Nat) (oracle : List SysRes) (off : Nat) : Option (Nat × Nat) :=
  if len ≤ off then some (0, off)
  else match oracle with
    | [] => none
    | SysRes.fail e :: rest =>
      if retryable e then copy_file_range_loop len rest off else some (e, off)
    | SysRes.ok 0 :: _ => some (0, off)
    | SysRes.ok (n+1) :: rest => copy_file_range_loop len rest (off + (n+1))

/-- Outcome of the `copy_file_range` phase of `kk_posix_copy_file`:
either the whole function returns `err` right away, or control falls
through to the generic buffered copy loop. -/
inductive CRPhase where
  | terminal (err : Nat)
  | fallthrough
deriving DecidableEq, Repr

/-- The decision after the `copy_file_range` loop (os.c line 328-330):
`if (err != EINVAL || off_in > 0) return err;` — otherwise reset `err` and
fall through to the generic buffered copy loop. -/
def copy_file_range_phase (len : Nat) (oracle : List SysRes) : Option CRPhase :=
  match copy_file_range_loop len oracle 0 with
  | none => none
  | some (err, off) =>
    if err ≠ EINVAL ∨ 0 < off then some (CRPhase.terminal err) else some CRPhase.fallthrough

/-! ### Invariants of the retry loops -/

/-- Write-loop invariants, generalized over the starting offset.  The loop is
entered either at offset `0` (the only way os.c calls it) or mid-way with
`ofs < len`. -/
lemma writeRetry_spec (L : Nat) :
    ∀ (oracle : List SysRes) (ofs : Nat), ofs ≤ L → (ofs < L ∨ ofs = 0) →
    ValidTrace L oracle ofs = true →
    ∀ err moved, kk_posix_write_retry L oracle ofs = some (err, moved) →
      moved ≤ L ∧ (err = 0 → moved = L) ∧
      (err ≠ 0 → retryable err = false ∧ (0 < L → moved < L)) := by
  intro oracle
  induction oracle with
  | nil =>
    intro ofs _ _ _ err moved h
    simp [kk_posix_write_retry] at h
  | cons head rest ih =>
    intro ofs h1 h2 hv err moved h
    cases head with
    | fail e =>
      simp only [ValidTrace, Bool.and_eq_true, decide_eq_true_eq] at hv
      simp only [kk_posix_write_retry] at h
      by_cases hr : retryable e
      · simp only [hr, if_true] at h
        by_cases ho : ofs < L
        · simp only [ho, if_true] at h
          exact ih ofs h1 (Or.inl ho) hv.2 err moved h
        · simp only [ho, if_false, Option.some.injEq, Prod.mk.injEq] at h
          obtain ⟨rfl, rfl⟩ := h
          refine ⟨h1, fun _ => by omega, fun hc => absurd rfl hc⟩
      · simp only [hr, if_false, Option.some.injEq, Prod.mk.injEq] at h
        obtain ⟨rfl, rfl⟩ := h
        refine ⟨h1, fun h0 => absurd h0 hv.1, fun _ => ⟨by simpa using hr, fun hL => ?_⟩⟩
        rcases h2 with h2 | h2
        · exact h2
        · omega
    | ok n =>
      simp only [ValidTrace, Bool.and_eq_true, decide_eq_true_eq] at hv
      cases n with
      | zero =>
        simp only [kk_posix_write_retry, Option.some.injEq, Prod.mk.injEq] at h
        obtain ⟨rfl, rfl⟩ := h
        refine ⟨h1, fun h0 => by simp [EIOcode] at h0, fun _ => ⟨by decide, fun hL => ?_⟩⟩
        rcases h2 with h2 | h2
        · exact h2
        · omega
      | succ m =>
        simp only [kk_posix_write_retry] at h
        have hle : ofs + (m+1) ≤ L := by omega
        by_cases ho : ofs + (m+1) < L
        · simp only [ho, if_true] at h
          exact ih (ofs + (m+1)) hle (Or.inl ho) hv.2 err moved h
        · simp only [ho, if_false, Option.some.injEq, Prod.mk.injEq] at h
          obtain ⟨rfl, rfl⟩ := h
          refine ⟨hle, fun _ => by omega, fun hc => absurd rfl hc⟩

/-- Read-loop invariants, generalized over the starting offset. -/
lemma readRetry_spec (L : Nat) :
    ∀ (oracle : List SysRes) (ofs : Nat), ofs ≤ L →
    ValidTrace L oracle ofs = true →
    ∀ err moved eof, kk_posix_read_retry L oracle ofs = some (err, moved, eof) →
      retryable err = false ∧ ofs ≤ moved ∧ moved ≤ L ∧ (eof = true → err = 0) ∧
      (moved < L → err ≠ 0 ∨ eof = true) := by
  intro oracle
  induction oracle with
  | nil =>
    intro ofs _ _ err moved eof h
    simp [kk_posix_read_retry] at h
  | cons head rest ih =>
    intro ofs h1 hv err moved eof h
    cases head with
    | fail e =>
      simp only [ValidTrace, Bool.and_eq_true, decide_eq_true_eq] at hv
      simp only [kk_posix_read_retry] at h
      by_cases hr : retryable e
      · simp only [hr, if_true] at h
        by_cases ho : ofs < L
        · simp only [ho, if_true] at h
          obtain ⟨c1, c2, c3, c4, c5⟩ := ih ofs h1 hv.2 err moved eof h
          exact ⟨c1, c2, c3, c4, c5⟩
        · simp only [ho, if_false, Option.some.injEq, Prod.mk.injEq] at h
          obtain ⟨rfl, rfl, rfl⟩ := h
          exact ⟨by decide, le_refl _, h1, fun _ => rfl, fun hc => by omega⟩
      · simp only [hr, if_false, Option.some.injEq, Prod.mk.injEq] at h
        obtain ⟨rfl, rfl, rfl⟩ := h
        exact ⟨by simpa using hr, le_refl _, h1, by simp, fun _ => Or.inl hv.1⟩
    | ok n =>
      simp only [ValidTrace, Bool.and_eq_true, decide_eq_true_eq] at hv
      cases n with
      | zero =>
        simp only [kk_posix_read_retry, Option.some.injEq, Prod.mk.injEq] at h
        obtain ⟨rfl, rfl, rfl⟩ := h
        exact ⟨by decide, le_refl _, h1, fun _ => rfl, fun _ => Or.inr rfl⟩
      | succ m =>
        simp only [kk_posix_read_retry] at h
        have hle : ofs + (m+1) ≤ L := by omega
        by_cases ho : ofs + (m+1) < L
        · simp only [ho, if_true] at h
          obtain ⟨c1, c2, c3, c4, c5⟩ := ih (ofs + (m+1)) hle hv.2 err moved eof h
          exact ⟨c1, by omega, c3, c4, c5⟩
        · simp only [ho, if_false, Option.some.injEq, Prod.mk.injEq] at h
          obtain ⟨rfl, rfl, rfl⟩ := h
          exact ⟨by decide, by omega, hle, by simp, fun hc => by omega⟩

/-- The write loop returns (does not exhaust the oracle) whenever the trace
holds at least `L - ofs` progressing results. -/
lemma writeRetry_total (L : Nat) :
    ∀ (oracle : List SysRes) (ofs : Nat), oracle ≠ [] → L - ofs ≤ posCount oracle →
    ∃ err moved, kk_posix_write_retry L oracle ofs = some (err, moved) := by
  intro oracle
  induction oracle with
  | nil => intro ofs h _; exact absurd rfl h
  | cons head rest ih =>
    intro ofs _ hp
    cases head with
    | fail e =>
      have hp' : L - ofs ≤ posCount rest := by
        simpa [posCount, List.countP_cons] using hp
      by_cases hr : retryable e
      · by_cases ho : ofs < L
        · have hrest : rest ≠ [] := by
            intro hnil; subst hnil; simp [posCount] at hp'; omega
          obtain ⟨err, moved, h⟩ := ih ofs hrest hp'
          exact ⟨err, moved, by simp [kk_posix_write_retry, hr, ho, h]⟩
        · exact ⟨0, ofs, by simp [kk_posix_write_retry, hr, ho]⟩
      · exact ⟨e, ofs, by simp [kk_posix_write_retry, hr]⟩
    | ok n =>
      cases n with
      | zero => exact ⟨EIOcode, ofs, by simp [kk_posix_write_retry]⟩
      | succ m =>
        have hp' : L - ofs ≤ posCount rest + 1 := by
          simpa [posCount, List.countP_cons] using hp
        by_cases ho : ofs + (m+1) < L
        · have hrest : rest ≠ [] := by
            intro hnil; subst hnil; simp [posCount] at hp'; omega
          obtain ⟨err, moved, h⟩ := ih (ofs + (m+1)) hrest (by omega)
          exact ⟨err, moved, by simp [kk_posix_write_retry, ho, h]⟩
        · exact ⟨0, ofs + (m+1), by simp [kk_posix_write_retry, ho]⟩

/-- The read loop returns (does not exhaust the oracle) whenever the trace
holds at least `L - ofs` progressing results. -/
lemma readRetry_total (L : Nat) :
    ∀ (oracle : List SysRes) (ofs : Nat), oracle ≠ [] → L - ofs ≤ posCount oracle →
    ∃ err moved eof, kk_posix_read_retry L oracle ofs = some (err, moved, eof) := by
  intro oracle
  induction oracle with
  | nil => intro ofs h _; exact absurd rfl h
  | cons head rest ih =>
    intro ofs _ hp
    cases head with
    | fail e =>
      have hp' : L - ofs ≤ posCount rest := by
        simpa [posCount, List.countP_cons] using hp
      by_cases hr : retryable e
      · by_cases ho : ofs < L
        · have hrest : rest ≠ [] := by
            intro hnil; subst hnil; simp [posCount] at hp'; omega
          obtain ⟨err, moved, eof, h⟩ := ih ofs hrest hp'
          exact ⟨err, moved, eof, by simp [kk_posix_read_retry, hr, ho, h]⟩
        · exact ⟨0, ofs, false, by simp [kk_posix_read_retry, hr, ho]⟩
      · exact ⟨e, ofs, false, by simp [kk_posix_read_retry, hr]⟩
    | ok n =>
      cases n with
      | zero => exact ⟨0, ofs, true, by simp [kk_posix_read_retry]⟩
      | succ m =>
        have hp' : L - ofs ≤ posCount rest + 1 := by
          simpa [posCount, List.countP_cons] using hp
        by_cases ho : ofs + (m+1) < L
        · have hrest : rest ≠ [] := by
            intro hnil; subst hnil; simp [posCount] at hp'; omega
          obtain ⟨err, moved, eof, h⟩ := ih (ofs + (m+1)) hrest (by omega)
          exact ⟨err, moved, eof, by simp [kk_posix_read_retry, ho, h]⟩
        · exact ⟨0, ofs + (m+1), false, by simp [kk_posix_read_retry, ho]⟩

/-! ### Claim C3 -/

/-- C3 counterexample: for requested length 0, the do-while in
`kk_posix_write_retry` still issues one `write` call; a zero return (the
normal result of `write(fd, buf, 0)` on a regular file) is turned into `EIO`,
so the loop reports `moved == length` (both 0) together with a nonzero
status — refuting "moved equals requested length if and only if status Ok". -/
theorem c3_counterexample :
    ValidTrace 0 [SysRes.ok 0] 0 = true ∧
    kk_posix_write_retry 0 [SysRes.ok 0] 0 = some (EIOcode, 0) ∧
    ¬ (EIOcode = 0) := by decide

/-- C3 (amended): for every valid syscall trace on which the write loop
returns, Ok status implies the reported count equals the requested length,
and for every positive requested length the count equals the length if and
only if the status is Ok.  (At length 0 the "if" direction fails, as
`c3_counterexample` shows.) -/
theorem c3_write_moved_iff_ok (L : Nat) (oracle : List SysRes) (err moved : Nat)
    (hv : ValidTrace L oracle 0 = true)
    (h : kk_posix_write_retry L oracle 0 = some (err, moved)) :
    (err = 0 → moved = L) ∧ (0 < L → (moved = L ↔ err = 0)) := by
  obtain ⟨c1, c2, c3⟩ :=
    writeRetry_spec L oracle 0 (Nat.zero_le L) (Or.inr rfl) hv err moved h
  refine ⟨c2, fun hL => ⟨fun hm => ?_, c2⟩⟩
  by_contra h0
  have := (c3 h0).2 hL
  omega

/-- Witness for `c3_write_moved_iff_ok` at length 2 with a single full write. -/
theorem c3_witness :
    ValidTrace 2 [SysRes.ok 2] 0 = true ∧
    kk_posix_write_retry 2 [SysRes.ok 2] 0 = some (0, 2) ∧
    ((0 = 0 → 2 = 2) ∧ (0 < 2 → (2 = 2 ↔ 0 = 0))) :=
  ⟨by decide, by decide, c3_write_moved_iff_ok 2 [SysRes.ok 2] 0 2 (by decide) (by decide)⟩

/-! ### Claim C6 -/

/-- C6: on every valid trace, neither retry loop ever surfaces `EAGAIN` or
`EINTR` as its status; a retryable failure is consumed and the loop simply
continues (third conjunct); on the read side the count never exceeds the
request, a zero-byte read stops the loop with Ok status, and a short count
happens only on end-of-input or a non-retryable (hence nonzero) error. -/
theorem c6_transient_retried (L : Nat) (oracle : List SysRes)
    (hv : ValidTrace L oracle 0 = true) :
    (∀ err moved eof, kk_posix_read_retry L oracle 0 = some (err, moved, eof) →
        err ≠ EAGAIN ∧ err ≠ EINTR ∧ moved ≤ L ∧ (eof = true → err = 0) ∧
        (moved < L → err ≠ 0 ∨ eof = true)) ∧
    (∀ err moved, kk_posix_write_retry L oracle 0 = some (err, moved) →
        err ≠ EAGAIN ∧ err ≠ EINTR) ∧
    (∀ e rest ofs, retryable e = true → ofs < L →
        kk_posix_read_retry L (SysRes.fail e :: rest) ofs = kk_posix_read_retry L rest ofs ∧
        kk_posix_write_retry L (SysRes.fail e :: rest) ofs = kk_posix_write_retry L rest ofs) := by
  refine ⟨?_, ?_, ?_⟩
  · intro err moved eof h
    obtain ⟨c1, _, c3, c4, c5⟩ :=
      readRetry_spec L oracle 0 (Nat.zero_le L) hv err moved eof h
    simp only [retryable, Bool.or_eq_false_iff, decide_eq_false_iff_not] at c1
    exact ⟨c1.1, c1.2, c3, c4, c5⟩
  · intro err moved h
    have hcase : err = 0 ∨ err ≠ 0 := em _
    obtain ⟨_, _, c3⟩ :=
      writeRetry_spec L oracle 0 (Nat.zero_le L) (Or.inr rfl) hv err moved h
    rcases hcase with h0 | h0
    · subst h0; exact ⟨by decide, by decide⟩
    · have := (c3 h0).1
      simp only [retryable, Bool.or_eq_false_iff, decide_eq_false_iff_not] at this
      exact this
  · intro e rest ofs hr hofs
    constructor
    · simp [kk_posix_read_retry, hr, hofs]
    · simp [kk_posix_write_retry, hr, hofs]

/-- Witness for `c6_transient_retried` on a trace with an interrupt, one
byte of progress and then end-of-input. -/
theorem c6_witness :
    ValidTrace 2 [SysRes.fail EINTR, SysRes.ok 1, SysRes.ok 0] 0 = true ∧
    ((∀ err moved eof,
        kk_posix_read_retry 2 [SysRes.fail EINTR, SysRes.ok 1, SysRes.ok 0] 0 =
          some (err, moved, eof) →
        err ≠ EAGAIN ∧ err ≠ EINTR ∧ moved ≤ 2 ∧ (eof = true → err = 0) ∧
        (moved < 2 → err ≠ 0 ∨ eof = true)) ∧
     (∀ err moved,
        kk_posix_write_retry 2 [SysRes.fail EINTR, SysRes.ok 1, SysRes.ok 0] 0 =
          some (err, moved) →
        err ≠ EAGAIN ∧ err ≠ EINTR) ∧
     (∀ e rest ofs, retryable e = true → ofs < 2 →
        kk_posix_read_retry 2 (SysRes.fail e :: rest) ofs = kk_posix_read_retry 2 rest ofs ∧
        kk_posix_write_retry 2 (SysRes.fail e :: rest) ofs = kk_posix_write_retry 2 rest ofs)) :=
  ⟨by decide, c6_transient_retried 2 [SysRes.fail EINTR, SysRes.ok 1, SysRes.ok 0] (by decide)⟩

/-! ### Claim C9 -/

/-- C9: on every valid nonempty trace carrying at least `L` progressing
results (transient interruptions interleaved arbitrarily), both retry loops
terminate — they return a result rather than exhausting the oracle — the
write loop with `moved = L` on Ok status or a non-retryable error, and the
read loop with `moved ≤ L`, short only on end-of-input or an error. -/
theorem c9_retry_terminates (L : Nat) (oracle : List SysRes)
    (hv : ValidTrace L oracle 0 = true) (hne : oracle ≠ [])
    (hp : L ≤ posCount oracle) :
    (∃ err moved, kk_posix_write_retry L oracle 0 = some (err, moved) ∧
        (err = 0 → moved = L) ∧ (err ≠ 0 → retryable err = false)) ∧
    (∃ err moved eof, kk_posix_read_retry L oracle 0 = some (err, moved, eof) ∧
        moved ≤ L ∧ (moved < L → err ≠ 0 ∨ eof = true) ∧ retryable err = false) := by
  constructor
  · obtain ⟨err, moved, h⟩ := writeRetry_total L oracle 0 hne (by omega)
    obtain ⟨_, c2, c3⟩ :=
      writeRetry_spec L oracle 0 (Nat.zero_le L) (Or.inr rfl) hv err moved h
    refine ⟨err, moved, h, c2, fun h0 => (c3 h0).1⟩
  · obtain ⟨err, moved, eof, h⟩ := readRetry_total L oracle 0 hne (by omega)
    obtain ⟨c1, _, c3, _, c5⟩ :=
      readRetry_spec L oracle 0 (Nat.zero_le L) hv err moved eof h
    exact ⟨err, moved, eof, h, c3, c5, c1⟩

/-- Witness for `c9_retry_terminates`: two interrupts interleaved with two
single-byte transfers complete a 2-byte request. -/
theorem c9_witness :
    ValidTrace 2 [SysRes.fail EINTR, SysRes.ok 1, SysRes.fail EAGAIN, SysRes.ok 1] 0 = true ∧
    [SysRes.fail EINTR, SysRes.ok 1, SysRes.fail EAGAIN, SysRes.ok 1] ≠ [] ∧
    2 ≤ posCount [SysRes.fail EINTR, SysRes.ok 1, SysRes.fail EAGAIN, SysRes.ok 1] ∧
    ((∃ err moved,
        kk_posix_write_retry 2 [SysRes.fail EINTR, SysRes.ok 1, SysRes.fail EAGAIN, SysRes.ok 1] 0 =
          some (err, moved) ∧
        (err = 0 → moved = 2) ∧ (err ≠ 0 → retryable err = false)) ∧
     (∃ err moved eof,
        kk_posix_read_retry 2 [SysRes.fail EINTR, SysRes.ok 1, SysRes.fail EAGAIN, SysRes.ok 1] 0 =
          some (err, moved, eof) ∧
        moved ≤ 2 ∧ (moved < 2 → err ≠ 0 ∨ eof = true) ∧ retryable err = false)) :=
  ⟨by decide, by decide, by decide,
    c9_retry_terminates 2 [SysRes.fail EINTR, SysRes.ok 1, SysRes.fail EAGAIN, SysRes.ok 1]
      (by decide) (by decide) (by decide)⟩

/-! ### Claim C7 -/

/-- `copy_file_range` only ever advances the input offset. -/
lemma crLoop_off_mono (len : Nat) :
    ∀ (oracle : List SysRes) (off0 e off : Nat),
    copy_file_range_loop len oracle off0 = some (e, off) → off0 ≤ off := by
  intro oracle
  induction oracle with
  | nil =>
    intro off0 e off h
    by_cases hl : len ≤ off0
    · simp only [copy_file_range_loop, hl, if_true, Option.some.injEq, Prod.mk.injEq] at h
      omega
    · simp [copy_file_range_loop, hl] at h
  | cons head rest ih =>
    intro off0 e off h
    by_cases hl : len ≤ off0
    · rw [copy_file_range_loop.eq_def] at h
      simp only [hl, if_true, Option.some.injEq, Prod.mk.injEq] at h
      omega
    · cases head with
      | fail e2 =>
        rw [copy_file_range_loop.eq_def] at h
        simp only [hl, if_false] at h
        by_cases hr : retryable e2
        · simp only [hr, if_true] at h
          exact ih off0 e off h
        · rw [if_neg hr] at h
          simp only [Option.some.injEq, Prod.mk.injEq] at h
          omega
      | ok n =>
        rw [copy_file_range_loop.eq_def] at h
        simp only [hl, if_false] at h
        cases n with
        | zero => simp only [Option.some.injEq, Prod.mk.injEq] at h; omega
        | succ m =>
          have := ih (off0 + (m+1)) e off h
          omega

/-- If the `copy_file_range` loop stops with a nonzero errno and zero bytes
transferred, the trace was a run of retryable failures followed by that
failure: the primitive failed immediately. -/
lemma crLoop_immediate_fail (len : Nat) (hlen : 0 < len) :
    ∀ (oracle : List SysRes) (e : Nat), e ≠ 0 →
    copy_file_range_loop len oracle 0 = some (e, 0) →
    ∃ pre rest, oracle = pre ++ SysRes.fail e :: rest ∧
      ∀ r ∈ pre, ∃ e2, r = SysRes.fail e2 ∧ retryable e2 = true := by
  have hnot : ¬ len ≤ 0 := by omega
  intro oracle
  induction oracle with
  | nil =>
    intro e _ h
    simp [copy_file_range_loop, hnot] at h
  | cons head rest ih =>
    intro e he h
    cases head with
    | fail e2 =>
      rw [copy_file_range_loop.eq_def] at h
      simp only [hnot, if_false] at h
      by_cases hr : retryable e2
      · simp only [hr, if_true] at h
        obtain ⟨pre, rest2, hsplit, hall⟩ := ih e he h
        refine ⟨SysRes.fail e2 :: pre, rest2, by simp [hsplit], ?_⟩
        intro r hrmem
        rcases List.mem_cons.mp hrmem with h | h
        · exact ⟨e2, by simp [h], hr⟩
        · exact hall r h
      · rw [if_neg hr] at h
        simp only [Option.some.injEq, Prod.mk.injEq] at h
        obtain ⟨rfl, -⟩ := h
        exact ⟨[], rest, rfl, by simp⟩
    | ok n =>
      rw [copy_file_range_loop.eq_def] at h
      simp only [hnot, if_false] at h
      cases n with
      | zero =>
        simp only [Option.some.injEq, Prod.mk.injEq] at h
        exact absurd h.1.symm he
      | succ m =>
        have := crLoop_off_mono len rest (0 + (m+1)) e 0 h
        omega

/-- C7: after the `copy_file_range` loop reports `(err, off_in)`, the copy
falls through to the generic buffered loop exactly when `err` is `EINVAL`
and zero bytes were transferred; in every other case (a different errno, or
any failure after partial progress) the function terminates with `err`.
Moreover the zero-progress `EINVAL` case really is an immediate failure of
the primitive: the consumed trace is retryable failures followed by the
`EINVAL` failure. -/
theorem c7_copy_range_fallthrough (len : Nat) (oracle : List SysRes) (err off : Nat)
    (h : copy_file_range_loop len oracle 0 = some (err, off)) :
    copy_file_range_phase len oracle =
      some (if err = EINVAL ∧ off = 0 then CRPhase.fallthrough else CRPhase.terminal err) ∧
    (err = EINVAL ∧ off = 0 ∧ 0 < len →
      ∃ pre rest, oracle = pre ++ SysRes.fail EINVAL :: rest ∧
        ∀ r ∈ pre, ∃ e2, r = SysRes.fail e2 ∧ retryable e2 = true) := by
  constructor
  · unfold copy_file_range_phase
    rw [h]
    by_cases hc : err = EINVAL ∧ off = 0
    · have : ¬ (err ≠ EINVAL ∨ 0 < off) := by
        push_neg
        exact ⟨hc.1, by omega⟩
      simp [this, hc]
    · have : err ≠ EINVAL ∨ 0 < off := by
        by_contra hcon
        push_neg at hcon
        exact hc ⟨hcon.1, by omega⟩
      simp [this, hc]
  · rintro ⟨rfl, rfl, hlen⟩
    exact crLoop_immediate_fail len hlen oracle EINVAL (by decide) h

/-- Witness for `c7_copy_range_fallthrough`: one interrupt then an immediate
`EINVAL` with zero bytes transferred — the phase falls through. -/
theorem c7_witness :
    copy_file_range_loop 4 [SysRes.fail EINTR, SysRes.fail EINVAL] 0 = some (EINVAL, 0) ∧
    (copy_file_range_phase 4 [SysRes.fail EINTR, SysRes.fail EINVAL] =
       some (if EINVAL = EINVAL ∧ 0 = 0 then CRPhase.fallthrough else CRPhase.terminal EINVAL) ∧
     (EINVAL = EINVAL ∧ 0 = 0 ∧ 0 < 4 →
       ∃ pre rest, [SysRes.fail EINTR, SysRes.fail EINVAL] = pre ++ SysRes.fail EINVAL :: rest ∧
         ∀ r ∈ pre, ∃ e2, r = SysRes.fail e2 ∧ retryable e2 = true)) :=
  ⟨by decide,
    c7_copy_range_fallthrough 4 [SysRes.fail EINTR, SysRes.fail EINVAL] EINVAL 0 (by decide)⟩

/-! ### Deterministic operating-system model for the whole-file operations

Claims C1 and C2 are about whole runs of `kk_os_write_text_file`,
`kk_os_read_text_file` and `kk_os_copy_file`, so the state of the file
system and of the descriptor table is made explicit.  System calls behave
deterministically here (no interruptions, full transfers); the
interruption-handling of the retry loops is verified against the oracle
model above.  Descriptors 0-2 are the process's pre-opened standard
streams; writes to descriptor 2 go to the standard-error stream. -/

abbrev Bytes := List Nat

structure OSState where
  files : List (String × Bytes)
  fdtab : List (Int × String × Nat)
  stderrOut : Bytes
deriving DecidableEq, Repr

def lookupFile (fs : List (String × Bytes)) (p : String) : Option Bytes :=
  List.lookup p fs

def setFile : List (String × Bytes) → String → Bytes → List (String × Bytes)
  | [], p, c => [(p, c)]
  | (q, d) :: rest, p, c => if q = p then (p, c) :: rest else (q, d) :: setFile rest p c

/-- `open` allocates the lowest unused descriptor; 0-2 are taken by the
standard streams. -/
def nextFd (st : OSState) : Int := 3 + st.fdtab.length

def fdLookup (st : OSState) (fd : Int) : Option (String × Nat) :=
  List.lookup fd st.fdtab

def fdSetPos : List (Int × String × Nat) → Int → Nat → List (Int × String × Nat)
  | [], _, _ => []
  | (f, p, pos) :: rest, fd, newpos =>
    if f = fd then (f, p, newpos) :: rest else (f, p, pos) :: fdSetPos rest fd newpos

inductive OpenMode where
  | rdonly
  | wronly
deriving DecidableEq, Repr

/-- Embedding of `kk_posix_open` (os.c lines 40-53) over the explicit state:
`open` without `O_CREAT` fails with `errno = ENOENT` on a missing path (for
both `O_RDONLY` and `O_WRONLY`) and otherwise yields a fresh descriptor.
Faithful to the C return convention `return (f < 0 ? errno : f)`: on failure
the function returns errno — a *nonnegative* value. -/
def kk_posix_open (st : OSState) (path : String) (_mode : OpenMode) : Int × OSState :=
  match lookupFile st.files path with
  | some _ =>
    let fd := nextFd st
    (fd, { st with fdtab := (fd, path, 0) :: st.fdtab })
  | none => ((ENOENT : Int), st)

structure KkStat where
  st_mode : Nat
  st_size : Nat
deriving DecidableEq, Repr

/-- `fstat` in the deterministic model: descriptor 2 is the pre-opened
standard-error character device (size 0); a descriptor from `open` reports a
regular file and its size; anything else is `EBADF`. -/
def sys_fstat (st : OSState) (fd : Int) : Except Nat KkStat :=
  if fd = 2 then Except.ok ⟨S_IFCHR, 0⟩
  else match fdLookup st fd with
    | some (p, _) =>
      match lookupFile st.files p with
      | some c => Except.ok ⟨S_IFREG, c.length⟩
      | none => Except.error ENOENT
    | none => Except.error EBADF

/-- Embedding of `kk_posix_fsize` (os.c lines 67-74). -/
def kk_posix_fsize (st : OSState) (fd : Int) : Except Nat Nat :=
  match sys_fstat st fd with
  | Except.error e => Except.error e
  | Except.ok stbuf => Except.ok stbuf.st_size

def sys_close (st : OSState) (fd : Int) : OSState :=
  { st with fdtab := st.fdtab.filter (fun e => e.1 != fd) }

/-- One deterministic `write`: the full buffer is accepted.  Descriptor 2
appends to the standard-error stream; a descriptor from `open` overwrites
the file at the descriptor's position (`O_WRONLY` does not truncate). -/
def sys_write (st : OSState) (fd : Int) (buf : Bytes) : Except Nat (Nat × OSState) :=
  if fd = 2 then Except.ok (buf.length, { st with stderrOut := st.stderrOut ++ buf })
  else match fdLookup st fd with
    | some (p, pos) =>
      match lookupFile st.files p with
      | some c =>
        let c2 := c.take pos ++ buf ++ c.drop (pos + buf.length)
        Except.ok (buf.length,
          { st with files := setFile st.files p c2,
                    fdtab := fdSetPos st.fdtab fd (pos + buf.length) })
      | none => Except.error EBADF
    | none => Except.error EBADF

/-- One deterministic `read`: returns up to the requested count from the
descriptor's position (descriptor 2, the standard-error stream, yields
nothing to read). -/
def sys_read (st : OSState) (fd : Int) (n : Nat) : Except Nat (Bytes × OSState) :=
  if fd = 2 then Except.ok ([], st)
  else match fdLookup st fd with
    | some (p, pos) =>
      match lookupFile st.files p with
      | some c =>
        let chunk := (c.drop pos).take n
        Except.ok (chunk, { st with fdtab := fdSetPos st.fdtab fd (pos + chunk.length) })
      | none => Except.error EBADF
    | none => Except.error EBADF

/-- The loop of `kk_posix_read_retry` under the deterministic model
(`sys_read` never interrupts, so the transient-retry branch is unreachable
here; the interleaving behaviour is verified against the oracle model
above).  `fuel` bounds iterations; `buflen + 2` always suffices because
every continuing iteration makes progress. -/
def read_retry_go (fd : Int) (buflen : Nat) : Nat → OSState → Bytes → Nat × Bytes × OSState
  | 0, st, acc => (EIOcode, acc, st)
  | fuel+1, st, acc =>
    match sys_read st fd (buflen - acc.length) with
    | Except.error e =>
      if retryable e then
        (if acc.length < buflen then read_retry_go fd buflen fuel st acc else (0, acc, st))
      else (e, acc, st)
    | Except.ok (chunk, st2) =>
      if chunk.length = 0 then (0, acc, st2)
      else
        if (acc ++ chunk).length < buflen then read_retry_go fd buflen fuel st2 (acc ++ chunk)
        else (0, acc ++ chunk, st2)

def kk_posix_read_retry_det (st : OSState) (fd : Int) (buflen : Nat) : Nat × Bytes × OSState :=
  read_retry_go fd buflen (buflen + 2) st []

/-- The loop of `kk_posix_write_retry` under the deterministic model. -/
def write_retry_go (fd : Int) (buf : Bytes) : Nat → OSState → Nat → Nat × Nat × OSState
  | 0, st, ofs => (EIOcode, ofs, st)
  | fuel+1, st, ofs =>
    match sys_write st fd (buf.drop ofs) with
    | Except.error e =>
      if retryable e then
        (if ofs < buf.length then write_retry_go fd buf fuel st ofs else (0, ofs, st))
      else (e, ofs, st)
    | Except.ok (n, st2) =>
      if n = 0 then (EIOcode, ofs, st2)
      else
        if ofs + n < buf.length then write_retry_go fd buf fuel st2 (ofs + n)
        else (0, ofs + n, st2)

def kk_posix_write_retry_det (st : OSState) (fd : Int) (buf : Bytes) : Nat × Nat × OSState :=
  write_retry_go fd buf (buf.length + 2) st 0

/-- Embedding of `kk_os_write_text_file` (os.c lines 193-211).  The open
mode is plain `O_WRONLY` (no `O_CREAT`), and the failure check
`if (f < 0) return errno` tests the value `kk_posix_open` already converted
to a nonnegative errno — both kept exactly as in the source. -/
def kk_os_write_text_file (st : OSState) (path : String) (content : Bytes) : Nat × OSState :=
  let r := kk_posix_open st path OpenMode.wronly
  let f := r.1
  let st1 := r.2
  if f < 0 then (ENOENT, st1)
  else
    let len := content.length
    let res :=
      if 0 < len then
        let w := kk_posix_write_retry_det st1 f content
        ((if w.1 = 0 ∧ w.2.1 < len then EIOcode else w.1), w.2.2)
      else (0, st1)
    (res.1, sys_close res.2 f)

/-- Embedding of `kk_os_read_text_file` (os.c lines 164-191).  The checks
`if (f < 0)` and `if (err < 0)` are kept as written; both are dead because
`kk_posix_open` and `kk_posix_read_retry` return nonnegative errno values. -/
def kk_os_read_text_file (st : OSState) (path : String) : Nat × Option Bytes × OSState :=
  let r := kk_posix_open st path OpenMode.rdonly
  let f := r.1
  let st1 := r.2
  if f < 0 then (ENOENT, none, st1)
  else
    match kk_posix_fsize st1 f with
    | Except.error e => (e, none, sys_close st1 f)
    | Except.ok len =>
      let rr := kk_posix_read_retry_det st1 f len
      let st2 := sys_close rr.2.2 f
      if (rr.1 : Int) < 0 then (rr.1, none, st2)
      else (0, some rr.2.1, st2)

/-- Modelled from the spec: `kk_posix_creat` (declared in kklib.h, not part
of os.c) — "create/overwrite destination inheriting the source's permission
bits".  Creates (or truncates) the file at `path` and returns a fresh
descriptor positioned at 0. -/
def kk_posix_creat (st : OSState) (path : String) (_mode : Nat) : Int × OSState :=
  let fd := nextFd st
  (fd, { st with files := setFile st.files path [],
                 fdtab := (fd, path, 0) :: st.fdtab })

/-- The generic buffered copy loop of `kk_posix_copy_file` (os.c lines
333-349) under the deterministic model: alternate `read_retry` and
`write_retry` until `todo` is exhausted, an empty read (end of input), or an
error.  (The `copy_file_range` block above it in the source is compiled out
— its guard macro `COPY_FR_COPY` is never defined — and its logic is
verified separately via `copy_file_range_phase`.)  `fuel` bounds the
iterations; `len + 1` suffices because every continuing iteration moves at
least one byte. -/
def copy_loop (inp out : Int) (buflen : Nat) : Nat → OSState → Nat → Nat × OSState
  | 0, st, _ => (EIOcode, st)
  | fuel+1, st, todo =>
    if todo = 0 then (0, st)
    else
      let toread := if todo > buflen then buflen else todo
      let rr := kk_posix_read_retry_det st inp toread
      if rr.1 ≠ 0 ∨ rr.2.1.length = 0 then (rr.1, rr.2.2)
      else
        let wr := kk_posix_write_retry_det rr.2.2 out rr.2.1
        if wr.1 ≠ 0 then (wr.1, wr.2.2)
        else copy_loop inp out buflen fuel wr.2.2 (todo - rr.2.1.length)

/-- Embedding of the generic `kk_posix_copy_file` (os.c lines 305-350) with
the buffer cap `buflen = min(1 MiB, len)`.  Allocation of the scratch
buffer always succeeds in this model (the `ENOMEM` branch is unreachable). -/
def kk_posix_copy_file (st : OSState) (inp out : Int) (len : Nat) : Nat × OSState :=
  let buflen := if 1024*1024 > len then len else 1024*1024
  copy_loop inp out buflen (len + 1) st len

/-- Embedding of `kk_os_copy_file`, generic Unix branch (os.c lines
353-412): open the source read-only, `fstat` it, create the destination
with the source's mode, copy the contents, close both descriptors.  The
checks `inp < 0` and `out < 0` are as in the source (dead for
`kk_posix_open`, which returns errno as a nonnegative value).  Timestamp
propagation (`futimens`) has no observable effect in this model; the
deterministic `close` never fails, so the `close(out)` error branch keeps
`err`. -/
def kk_os_copy_file (st : OSState) (src dst : String) (_preserve_mtime : Bool) : Nat × OSState :=
  let r := kk_posix_open st src OpenMode.rdonly
  let inp := r.1
  let st1 := r.2
  if inp < 0 then (ENOENT, st1)
  else
    match sys_fstat st1 inp with
    | Except.error e => (e, sys_close st1 inp)
    | Except.ok finfo =>
      let rc := kk_posix_creat st1 dst finfo.st_mode
      let out := rc.1
      let st2 := rc.2
      if out < 0 then (ENOENT, sys_close st2 inp)
      else
        let cp := kk_posix_copy_file st2 inp out finfo.st_size
        let st4 := sys_close cp.2 inp
        (cp.1, sys_close st4 out)

/-! ### Claims C1 and C2 -/

/-- C1 (code bug): on a fresh (non-existing) path, `kk_os_write_text_file`
returns Ok **without creating the file**: `open(path, O_WRONLY)` (no
`O_CREAT`) fails, `kk_posix_open` converts the failure to the nonnegative
errno `ENOENT = 2`, the caller's `if (f < 0)` check therefore never fires,
and the content is written to descriptor 2 (standard error).  The
subsequent `kk_os_read_text_file` on the same path likewise "succeeds" on
descriptor 2 and returns Ok with empty content — so writing then reading
back `[97]` yields `[]`, refuting the round-trip property. -/
theorem c1_roundtrip_code_bug :
    kk_os_write_text_file ⟨[], [], []⟩ "p" [97] = (0, ⟨[], [], [97]⟩) ∧
    kk_os_read_text_file ⟨[], [], [97]⟩ "p" = (0, some [], ⟨[], [], [97]⟩) ∧
    some ([] : Bytes) ≠ some [97] := by decide

/-- C2 (code bug): with a nonexistent source, `kk_posix_open` returns the
nonnegative errno `ENOENT = 2`, the `inp < 0` check never fires, `fstat`
succeeds on descriptor 2 (standard error, size 0), and the function
**creates the destination** and returns Ok — instead of returning `ENOENT`
and leaving the destination untouched. -/
theorem c2_copy_missing_source_code_bug :
    lookupFile ([] : List (String × Bytes)) "src" = none ∧
    kk_os_copy_file ⟨[], [], []⟩ "src" "dst" false = (0, ⟨[("dst", [])], [], []⟩) ∧
    lookupFile [("dst", ([] : Bytes))] "dst" = some [] ∧
    (0 : Nat) ≠ ENOENT := by decide

/-! ### Directory listing (claim C4)

`kk_os_list_directory` (os.c lines 505-540) drives the directory cursor
(`os_findfirst` / `os_findnext` over `opendir`/`readdir`) and accumulates
entry names in a growable vector.  The cursor is modelled by the list of
raw entry names `readdir` yields, in order (a real POSIX directory always
starts with the two pseudo-entries); end-of-stream reports errno 0 (clean
`errno`, the distinguished success-with-end of os.c line 476).  The vector
primitive is an external collaborator of os.c (spec section 6: "a growable
sequence container supporting pre-sized allocation, in-place element write,
and resize-to-exact-count") and is modelled from those words, with `none`
standing for the boxed placeholder of unused slots. -/

/-- Modelled from the spec: `kk_vector_alloc n fill` — pre-sized allocation
(all slots hold the placeholder). -/
def kk_vector_alloc (n : Nat) : List (Option String) := List.replicate n none

/-- Modelled from the spec: `kk_vector_realloc v n fill` — resize to exactly
`n` slots, keeping the first `min n (length v)` elements and filling any new
slots with the placeholder. -/
def kk_vector_realloc (v : List (Option String)) (n : Nat) : List (Option String) :=
  v.take n ++ List.replicate (n - v.length) none

/-- Embedding of `os_direntry_name` (os.c lines 494-502): the two
pseudo-entries are mapped to the empty string. -/
def os_direntry_name (dname : String) : String :=
  if dname = "." ∨ dname = ".." then "" else dname

/-- The accumulation loop of `kk_os_list_directory`: for each cursor entry,
skip empty names; otherwise grow the vector when full (`len > 1000 ?
len+1000 : 2*len`), write the name at index `count`, and advance.  At
end-of-stream the vector is resized to exactly `count` (errno clean, so the
final status is 0). -/
def listLoop : List String → Nat → Nat → List (Option String) → Nat × List (Option String)
  | [], count, _, vec => (0, kk_vector_realloc vec count)
  | e :: rest, count, len, vec =>
    let name := os_direntry_name e
    if name = "" then listLoop rest count len vec
    else if count = len then
      let newlen := if len > 1000 then len + 1000 else 2*len
      listLoop rest (count+1) newlen ((kk_vector_realloc vec newlen).set count (some name))
    else listLoop rest (count+1) len (vec.set count (some name))

/-- Embedding of `kk_os_list_directory` (os.c lines 505-540).  The input is
the result of opening the cursor: `Except.error e` when `os_findfirst`
fails (the function returns the empty vector and `e`), otherwise the raw
entry stream.  An immediately-empty stream is `os_findfirst` returning
false with clean errno: empty vector, status 0.  Otherwise the do-while
processes the first entry and every `os_findnext` result in order, starting
from a 100-slot vector. -/
def kk_os_list_directory (d : Except Nat (List String)) : Nat × List (Option String) :=
  match d with
  | Except.error e => (e, [])
  | Except.ok [] => (0, [])
  | Except.ok (e0 :: rest) => listLoop (e0 :: rest) 0 100 (kk_vector_alloc 100)

/-- The names a raw entry stream contributes: pseudo-entries drop out. -/
def goodNames (es : List String) : List String :=
  es.filterMap (fun e => if os_direntry_name e = "" then none else some (os_direntry_name e))

lemma length_vector_realloc (v : List (Option String)) (n : Nat) :
    (kk_vector_realloc v n).length = n := by
  simp [kk_vector_realloc, List.length_take]
  omega

lemma take_vector_realloc (v : List (Option String)) (n count : Nat)
    (h1 : count ≤ v.length) (h2 : count ≤ n) :
    (kk_vector_realloc v n).take count = v.take count := by
  unfold kk_vector_realloc
  rw [List.take_append_eq_append_take, List.take_take]
  have hm : min count n = count := by omega
  have hz : count - (v.take n).length = 0 := by
    simp [List.length_take]
    omega
  rw [hm, hz]
  simp

lemma take_succ_set (l : List (Option String)) (i : Nat) (a : Option String)
    (h : i < l.length) :
    (l.set i a).take (i+1) = l.take i ++ [a] := by
  induction l generalizing i with
  | nil => simp at h
  | cons x xs ih =>
    cases i with
    | zero => simp
    | succ j =>
      simp only [List.set_cons_succ, List.take_succ_cons, List.cons_append]
      rw [ih j (by simpa using h)]

/-- What the accumulation loop of `kk_os_list_directory` produces: the
already-filled prefix followed by the names the remaining entries
contribute, with Ok status — for every count/capacity configuration the
loop can reach. -/
lemma listLoop_spec :
    ∀ (entries : List String) (count len : Nat) (vec : List (Option String)),
    vec.length = len → count ≤ len → 1 ≤ len →
    listLoop entries count len vec = (0, vec.take count ++ (goodNames entries).map some) := by
  intro entries
  induction entries with
  | nil =>
    intro count len vec hlen hcl _
    simp only [listLoop, goodNames, List.filterMap_nil, List.map_nil, List.append_nil]
    unfold kk_vector_realloc
    have hz : count - vec.length = 0 := by omega
    rw [hz]
    simp
  | cons e rest ih =>
    intro count len vec hlen hcl hl
    simp only [listLoop]
    by_cases hname : os_direntry_name e = ""
    · simp only [hname, if_true]
      rw [ih count len vec hlen hcl hl]
      simp [goodNames, hname]
    · simp only [hname, if_false]
      by_cases hce : count = len
      · rw [if_pos hce]
        set newlen := if len > 1000 then len + 1000 else 2*len with hnewdef
        have hnew : len < newlen := by
          rw [hnewdef]; split <;> omega
        have hlen2 : ((kk_vector_realloc vec newlen).set count (some (os_direntry_name e))).length
            = newlen := by
          rw [List.length_set, length_vector_realloc]
        rw [ih (count+1) newlen _ hlen2 (by omega) (by omega)]
        rw [take_succ_set _ _ _ (by rw [length_vector_realloc]; omega)]
        rw [take_vector_realloc vec newlen count (by omega) (by omega)]
        simp [goodNames, hname]
      · simp only [hce, if_false]
        have hcf : count < len := by omega
        have hlen2 : (vec.set count (some (os_direntry_name e))).length = len := by
          rw [List.length_set, hlen]
        rw [ih (count+1) len _ hlen2 (by omega) hl]
        rw [take_succ_set _ _ _ (by omega)]
        simp [goodNames, hname]

lemma goodNames_cons_skip (e : String) (rest : List String)
    (h : os_direntry_name e = "") :
    goodNames (e :: rest) = goodNames rest := by
  simp [goodNames, List.filterMap_cons, h]

lemma goodNames_id (names : List String)
    (h : ∀ n ∈ names, n ≠ "." ∧ n ≠ ".." ∧ n ≠ "") :
    goodNames names = names := by
  induction names with
  | nil => rfl
  | cons n rest ih =>
    have hn := h n (List.mem_cons_self n rest)
    have hrest : ∀ m ∈ rest, m ≠ "." ∧ m ≠ ".." ∧ m ≠ "" :=
      fun m hm => h m (List.mem_cons_of_mem n hm)
    have hname : os_direntry_name n = n := by
      simp [os_direntry_name, hn.1, hn.2.1]
    simp only [goodNames, List.filterMap_cons] at ih ⊢
    rw [hname, if_neg hn.2.2]
    rw [ih hrest]

/-! ### Claim C4 -/

/-- C4: for a directory whose raw entry stream is the two pseudo-entries
followed by any `K` regular entry names (no name equal to `"."`, `".."` or
empty), `kk_os_list_directory` returns Ok and exactly those `K` names in
order, with neither pseudo-entry present — for every `K`, in particular
below, at and above the initial 100-slot capacity and across every
doubling/linear growth boundary (the proof is uniform in `K`). -/
theorem c4_list_directory (names : List String)
    (h : ∀ n ∈ names, n ≠ "." ∧ n ≠ ".." ∧ n ≠ "") :
    kk_os_list_directory (Except.ok ("." :: ".." :: names)) = (0, names.map some) := by
  have : kk_os_list_directory (Except.ok ("." :: ".." :: names))
      = listLoop ("." :: ".." :: names) 0 100 (kk_vector_alloc 100) := rfl
  rw [this, listLoop_spec ("." :: ".." :: names) 0 100 (kk_vector_alloc 100)
    (by simp [kk_vector_alloc]) (by omega) (by omega)]
  have h2 : goodNames ("." :: ".." :: names) = names := by
    rw [goodNames_cons_skip _ _ (by decide), goodNames_cons_skip _ _ (by decide)]
    exact goodNames_id names h
  rw [h2]
  simp

/-- Witness for `c4_list_directory` on two regular entries. -/
theorem c4_witness :
    (∀ n ∈ ["f1", "f2"], n ≠ "." ∧ n ≠ ".." ∧ n ≠ "") ∧
    kk_os_list_directory (Except.ok [".", "..", "f1", "f2"]) = (0, [some "f1", some "f2"]) :=
  ⟨by decide, by
    have h := c4_list_directory ["f1", "f2"] (by decide)
    simpa using h⟩

/-! ### ensure_dir (claim C5)

`kk_os_ensure_dir` walks the path character by character, temporarily
NUL-terminating at each separator and at the end, and ensures a directory
at each nonempty prefix.  The file-system state records the existing
directories and regular files; `mkdirCalls` instruments the model with the
number of `mkdir` invocations (successful or not). -/

structure DirFS where
  dirs : List String
  files : List String
  mkdirCalls : Nat
deriving DecidableEq, Repr

/-- Parent of a path: the part before the last `/`; `none` when the path
has no `/` (its parent is the working directory). -/
def parentOf (p : String) : Option String :=
  match (p.toList.reverse.dropWhile (fun c => c ≠ '/')) with
  | [] => none
  | _ :: tl => some (String.mk tl.reverse)

/-- POSIX `mkdir`: fails with `EEXIST` if anything already exists at `p`,
with `ENOENT` if the parent directory is missing; otherwise creates the
directory.  Every invocation bumps the call counter. -/
def sys_mkdir (st : DirFS) (p : String) (_mode : Int) : Nat × DirFS :=
  let st1 := { st with mkdirCalls := st.mkdirCalls + 1 }
  if st1.dirs.contains p || st1.files.contains p then (EEXIST, st1)
  else
    match parentOf p with
    | none => (0, { st1 with dirs := p :: st1.dirs })
    | some q =>
      if q = "" || st1.dirs.contains q then (0, { st1 with dirs := p :: st1.dirs })
      else (ENOENT, st1)

/-- One separator/terminator step of `kk_os_ensure_dir` (os.c lines
246-265): for a nonempty prefix, `stat` it (a failed `stat` leaves the
zero-initialized buffer, so `isdir` is false); if it is not a directory,
attempt `mkdir`, tolerating `EEXIST` as success and reporting any other
failure. -/
def ensureStep (st : DirFS) (mode : Int) (pre : List Char) : Nat × DirFS :=
  if pre.isEmpty then (0, st)
  else
    let q := String.mk pre
    if st.dirs.contains q then (0, st)
    else
      let r := sys_mkdir st q mode
      if r.1 ≠ 0 ∧ r.1 ≠ EEXIST then r else (0, r.2)

/-- The character walk of `kk_os_ensure_dir` (os.c lines 243-268): the
do-while visits every character including the final NUL (the `[]` case); at
each separator the prefix before it is ensured; the loop continues only
while no error has occurred. -/
def ensureLoop (mode : Int) : DirFS → List Char → List Char → Nat × DirFS
  | st, pre, [] => ensureStep st mode pre
  | st, pre, c :: cs =>
    if c = '/' ∨ c = '\\' then
      let r := ensureStep st mode pre
      if r.1 = 0 then ensureLoop mode r.2 (pre ++ [c]) cs else r
    else ensureLoop mode st (pre ++ [c]) cs

/-- Embedding of `kk_os_ensure_dir` (os.c lines 224-272): a negative mode
selects the default 0755, then the path is walked. -/
def kk_os_ensure_dir (st : DirFS) (path : String) (mode : Int) : Nat × DirFS :=
  let m := if mode < 0 then 493 else mode
  ensureLoop m st [] path.toList

/-- C5: starting from a root where no prefix of `a/b/c` exists,
`kk_os_ensure_dir` creates exactly the three nested directories `a`, `a/b`,
`a/b/c` (three `mkdir` calls) and returns Ok; running it again on the
resulting state performs no `mkdir` call at all (the counter stays at 3),
changes nothing, and returns Ok. -/
theorem c5_ensure_dir :
    kk_os_ensure_dir ⟨[], [], 0⟩ "a/b/c" (-1) =
      (0, ⟨["a/b/c", "a/b", "a"], [], 3⟩) ∧
    kk_os_ensure_dir ⟨["a/b/c", "a/b", "a"], [], 3⟩ "a/b/c" (-1) =
      (0, ⟨["a/b/c", "a/b", "a"], [], 3⟩) := by decide

/-! ### is_directory / is_file (claim C10)

`kk_posix_stat` (os.c lines 76-89) returns 0 on success and the (positive)
errno on failure; the two queries are parametrized by the stat outcome for
a path, which covers every way the underlying call can fail. -/

/-- Embedding of `kk_os_is_directory` (os.c lines 420-425): a nonzero stat
status yields `false`; otherwise the `S_IFDIR` mode bit is tested.  The
return type `Bool` carries no error channel. -/
def kk_os_is_directory (statm : String → Except Nat KkStat) (path : String) : Bool :=
  match statm path with
  | Except.error _ => false
  | Except.ok stbuf => decide (stbuf.st_mode &&& S_IFDIR ≠ 0)

/-- Embedding of `kk_os_is_file` (os.c lines 427-432): the same with the
`S_IFREG` bit. -/
def kk_os_is_file (statm : String → Except Nat KkStat) (path : String) : Bool :=
  match statm path with
  | Except.error _ => false
  | Except.ok stbuf => decide (stbuf.st_mode &&& S_IFREG ≠ 0)

/-- C10: whenever the underlying stat call fails (any path, any errno —
e.g. a nonexistent path), both queries return `false`; being `Bool`-valued
they surface no error status. -/
theorem c10_stat_fail_false (statm : String → Except Nat KkStat) (path : String) (e : Nat)
    (h : statm path = Except.error e) :
    kk_os_is_directory statm path = false ∧ kk_os_is_file statm path = false := by
  constructor <;> simp [kk_os_is_directory, kk_os_is_file, h]

/-- Witness for `c10_stat_fail_false`: a stat model on which every path is
missing. -/
theorem c10_witness :
    ((fun _ : String => (Except.error ENOENT : Except Nat KkStat)) "missing" =
      Except.error ENOENT) ∧
    (kk_os_is_directory (fun _ => Except.error ENOENT) "missing" = false ∧
     kk_os_is_file (fun _ => Except.error ENOENT) "missing" = false) :=
  ⟨rfl, c10_stat_fail_false (fun _ => Except.error ENOENT) "missing" ENOENT rfl⟩

/-! ### Search-path resolution (claim C8)

`kk_os_searchpathx` and `kk_os_app_path_generic` (os.c lines 811-875,
POSIX branch: `KK_PATH_SEP = ':'`, `KK_DIR_SEP = '/'`).  The state carries
the set of regular files (backing the stat oracle used by
`kk_os_is_file`), the platform canonicalization results (`realpath`
succeeds exactly on the recorded paths), and the `PATH` environment
variable (`none` models `getenv` returning NULL). -/

structure PathFS where
  isfile : List String
  real : List (String × String)
  pathEnv : Option String
deriving DecidableEq, Repr

/-- The stat outcome induced by the set of regular files. -/
def statOf (st : PathFS) (p : String) : Except Nat KkStat :=
  if st.isfile.contains p then Except.ok ⟨S_IFREG, 0⟩ else Except.error ENOENT

/-- Embedding of `kk_os_realpath`, POSIX branch (os.c lines 776-786): the
platform's canonicalization result when it succeeds, otherwise the original
path unchanged. -/
def kk_os_realpath (st : PathFS) (p : String) : String :=
  match List.lookup p st.real with
  | some r => r
  | none => p

/-- The segment scan of `kk_os_searchpathx` (os.c lines 820-838), with
explicit recursion fuel (each iteration consumes at least one character of
`paths`, so `paths.length` suffices — see `kk_os_searchpathx`): take the
segment up to the next `:` or the end, build `segment/fname`, return its
canonicalized form if that candidate is a regular file, else continue after
the separator; when the separator was the last character, `p < pend` ends
the scan (a trailing separator contributes no empty segment). -/
def searchGo (st : PathFS) (fname : String) : Nat → List Char → String
  | _, [] => ""
  | 0, _ :: _ => ""
  | fuel+1, c :: cs =>
    let seg := (c :: cs).takeWhile (fun ch => ch ≠ ':')
    let cand := String.mk seg ++ "/" ++ fname
    if kk_os_is_file (statOf st) cand then kk_os_realpath st cand
    else
      match (c :: cs).dropWhile (fun ch => ch ≠ ':') with
      | [] => ""
      | _ :: rest => searchGo st fname fuel rest

/-- Embedding of `kk_os_searchpathx` (os.c lines 811-841): a NULL `paths`
or an empty file name yields the empty string; otherwise the segment scan
runs over the whole list. -/
def kk_os_searchpathx (st : PathFS) (paths : Option String) (fname : String) : String :=
  match paths with
  | none => ""
  | some ps => if fname = "" then "" else searchGo st fname ps.length ps.toList

/-- Embedding of `kk_os_app_path_generic` (os.c lines 844-875), POSIX
branch: a NULL or empty `argv[0]` yields the empty string; an absolute path
is canonicalized directly; a name containing a separator is canonicalized
relative to `./`; a bare name is resolved through the `PATH` search,
falling back to canonicalizing the bare name when the search comes back
empty. -/
def kk_os_app_path_generic (st : PathFS) (argv0 : Option String) : String :=
  match argv0 with
  | none => ""
  | some p =>
    if p = "" then ""
    else if p.toList.head? = some '/' then kk_os_realpath st p
    else if p.toList.contains '/' then kk_os_realpath st ("./" ++ p)
    else
      let s := kk_os_searchpathx st st.pathEnv p
      if s = "" then kk_os_realpath st p else s

/-- Specification-side split of the search list, mirroring the C scan:
the `:`-separated segments in order, except that a trailing separator
contributes no empty final segment. -/
def specSegs : Nat → List Char → List String
  | _, [] => []
  | 0, _ :: _ => []
  | fuel+1, c :: cs =>
    String.mk ((c :: cs).takeWhile (fun ch => ch ≠ ':')) ::
      (match (c :: cs).dropWhile (fun ch => ch ≠ ':') with
       | [] => []
       | _ :: rest => specSegs fuel rest)

lemma lookup_mem_pairs (l : List (String × String)) (a b : String)
    (h : List.lookup a l = some b) : (a, b) ∈ l := by
  induction l with
  | nil => simp [List.lookup] at h
  | cons qr rest ih =>
    obtain ⟨k, v⟩ := qr
    rw [List.lookup] at h
    by_cases he : a = k
    · subst he
      simp only [beq_self_eq_true] at h
      obtain ⟨rfl⟩ := h
      exact List.mem_cons_self _ _
    · have hbeq : (a == k) = false := beq_false_of_ne he
      simp only [hbeq] at h
      exact List.mem_cons_of_mem _ (ih h)

/-- When canonicalization never produces the empty string (every recorded
`realpath` result is nonempty), `kk_os_realpath` of a nonempty path is
nonempty. -/
lemma realpath_ne_empty (st : PathFS) (h4 : ∀ qr ∈ st.real, qr.2 ≠ "")
    (q : String) (hq : q ≠ "") : kk_os_realpath st q ≠ "" := by
  unfold kk_os_realpath
  cases hl : List.lookup q st.real with
  | none => simpa using hq
  | some r => exact h4 (q, r) (lookup_mem_pairs st.real q r hl)

/-- The segment scan returns the canonicalized first candidate that is a
regular file, in segment order, and the empty string when no segment
matches. -/
lemma searchGo_eq_find (st : PathFS) (fname : String) :
    ∀ (fuel : Nat) (l : List Char),
    searchGo st fname fuel l =
      (match (specSegs fuel l).find?
          (fun seg => kk_os_is_file (statOf st) (seg ++ "/" ++ fname)) with
       | some seg => kk_os_realpath st (seg ++ "/" ++ fname)
       | none => "") := by
  intro fuel
  induction fuel with
  | zero =>
    intro l
    cases l with
    | nil => rfl
    | cons c cs => rfl
  | succ fuel ih =>
    intro l
    cases l with
    | nil => rfl
    | cons c cs =>
      simp only [searchGo, specSegs]
      cases hd : (c :: cs).dropWhile (fun ch => ch ≠ ':') with
      | nil =>
        by_cases hc : kk_os_is_file (statOf st)
            (String.mk ((c :: cs).takeWhile (fun ch => ch ≠ ':')) ++ "/" ++ fname)
        · rw [if_pos hc]
          have hfind : List.find? (fun seg => kk_os_is_file (statOf st) (seg ++ "/" ++ fname))
              [String.mk ((c :: cs).takeWhile (fun ch => ch ≠ ':'))] =
              some (String.mk ((c :: cs).takeWhile (fun ch => ch ≠ ':'))) :=
            List.find?_cons_of_pos _ (by simpa using hc)
          rw [hfind]
        · rw [if_neg hc]
          have hfind : List.find? (fun seg => kk_os_is_file (statOf st) (seg ++ "/" ++ fname))
              [String.mk ((c :: cs).takeWhile (fun ch => ch ≠ ':'))] =
              List.find? (fun seg => kk_os_is_file (statOf st) (seg ++ "/" ++ fname)) [] :=
            List.find?_cons_of_neg _ (by simpa using hc)
          rw [hfind]
          rfl
      | cons x rest =>
        by_cases hc : kk_os_is_file (statOf st)
            (String.mk ((c :: cs).takeWhile (fun ch => ch ≠ ':')) ++ "/" ++ fname)
        · rw [if_pos hc]
          have hfind : List.find? (fun seg => kk_os_is_file (statOf st) (seg ++ "/" ++ fname))
              (String.mk ((c :: cs).takeWhile (fun ch => ch ≠ ':')) :: specSegs fuel rest) =
              some (String.mk ((c :: cs).takeWhile (fun ch => ch ≠ ':'))) :=
            List.find?_cons_of_pos _ (by simpa using hc)
          rw [hfind]
        · rw [if_neg hc]
          have hfind : List.find? (fun seg => kk_os_is_file (statOf st) (seg ++ "/" ++ fname))
              (String.mk ((c :: cs).takeWhile (fun ch => ch ≠ ':')) :: specSegs fuel rest) =
              List.find? (fun seg => kk_os_is_file (statOf st) (seg ++ "/" ++ fname))
                (specSegs fuel rest) :=
            List.find?_cons_of_neg _ (by simpa using hc)
          rw [hfind]
          exact ih rest

lemma contains_eq_false_of_forall_ne (l : List Char) (a : Char)
    (h : ∀ c ∈ l, c ≠ a) : l.contains a = false := by
  induction l with
  | nil => rfl
  | cons c cs ih =>
    have hc := h c (List.mem_cons_self c cs)
    have hcs : ∀ x ∈ cs, x ≠ a := fun x hx => h x (List.mem_cons_of_mem c hx)
    simp only [List.contains_cons, ih hcs, Bool.or_false]
    exact beq_false_of_ne (fun hh => hc hh.symm)

/-- C8: resolving a bare executable name (nonempty, no `/`) through
`kk_os_app_path_generic` probes the `PATH` segments in order, forming
`segment/name`, and returns the canonicalized first candidate that exists
as a regular file; when no segment matches, it canonicalizes the bare name
as a last resort.  (The hypothesis on `st.real` says canonicalization never
produces the empty string, which holds of every real `realpath`.) -/
theorem c8_searchpath (st : PathFS) (name ps : String)
    (h1 : name ≠ "")
    (h2 : ∀ c ∈ name.toList, c ≠ '/')
    (h3 : st.pathEnv = some ps)
    (h4 : ∀ qr ∈ st.real, qr.2 ≠ "") :
    kk_os_app_path_generic st (some name) =
      (match (specSegs ps.length ps.toList).find?
          (fun seg => kk_os_is_file (statOf st) (seg ++ "/" ++ name)) with
       | some seg => kk_os_realpath st (seg ++ "/" ++ name)
       | none => kk_os_realpath st name) := by
  have hhead : ¬ name.toList.head? = some '/' := by
    cases hl : name.toList with
    | nil => simp
    | cons c cs =>
      have : c ≠ '/' := h2 c (by rw [hl]; exact List.mem_cons_self c cs)
      simp [this]
  have hcont : ¬ name.toList.contains '/' = true := by
    rw [contains_eq_false_of_forall_ne name.toList '/' h2]
    simp
  simp only [kk_os_app_path_generic]
  rw [if_neg h1, if_neg hhead, if_neg hcont, h3]
  simp only [kk_os_searchpathx]
  rw [if_neg h1, searchGo_eq_find]
  cases hf : (specSegs ps.length ps.toList).find?
      (fun seg => kk_os_is_file (statOf st) (seg ++ "/" ++ name)) with
  | none => simp
  | some seg =>
    have hcand : (seg ++ "/" ++ name) ≠ "" := by
      intro hh
      have := congrArg String.data hh
      simp only [String.data_append] at this
      simp at this
    have hs : kk_os_realpath st (seg ++ "/" ++ name) ≠ "" :=
      realpath_ne_empty st h4 _ hcand
    simp [hs]

/-- Witness for `c8_searchpath`: `PATH="/x:/y"` and a regular file `tool`
only under `/y`; resolution returns the canonicalized `/y/tool`. -/
theorem c8_witness :
    ("tool" ≠ "") ∧ (∀ c ∈ "tool".toList, c ≠ '/') ∧
    (PathFS.pathEnv ⟨["/y/tool"], [("/y/tool", "/Y/TOOL")], some "/x:/y"⟩ = some "/x:/y") ∧
    (∀ qr ∈ [("/y/tool", "/Y/TOOL")], Prod.snd qr ≠ "") ∧
    kk_os_app_path_generic ⟨["/y/tool"], [("/y/tool", "/Y/TOOL")], some "/x:/y"⟩ (some "tool") =
      "/Y/TOOL" := by
  refine ⟨by decide, by decide, rfl, by decide, ?_⟩
  have h := c8_searchpath ⟨["/y/tool"], [("/y/tool", "/Y/TOOL")], some "/x:/y"⟩ "tool" "/x:/y"
    (by decide) (by decide) rfl (by decide)
  rw [h]
  decide
